import Mathlib

/-!
Verification of the span-aggregation, placeholder-substitution and
re-alignment core of the `ilsp-athenarc-asep-anonymizer` repository.

The Python sources are embedded shallowly:

* `find_longest_pattern_matches` (`utils.py`) — span aggregation over raw
  `(start, end)` spans: deduplicate, drop spans strictly contained in a
  strictly longer span, sort by `(start, end)`.
* `match_entities` (`utils.py`) — context-anchoring alignment resolver.
* `PiiAnonymizer.anonymize_paragraph` / `PiiAnonymizer.anonymize`
  (`pii_anonymizer.py`) — paragraph pipeline.
* `CustomReplace.operate` (`custom_replace.py`) — placeholder operator.
* The reversible placeholder codec (per-entity-type instance counters and
  the entity mapping) is modelled from the spec, since only its caller is
  present among the sources.

Texts are modelled as `List Char`; Python string slices, `str.find`,
`str.index`, `str.strip` and `str.split` are embedded as executable list
functions with Python's clamping semantics.
-/

namespace Anonymizer

/-! ## Span aggregation (`find_longest_pattern_matches`, utils.py) -/

/-- Lexicographic order on `(start, end)` pairs, as used by Python's
`sorted`/`list.sort` on 2-tuples. -/
def spanLe (a b : Nat × Nat) : Prop :=
  a.1 < b.1 ∨ (a.1 = b.1 ∧ a.2 ≤ b.2)

instance : DecidableRel spanLe := fun a b => by
  unfold spanLe; exact inferInstance

instance : IsTotal (Nat × Nat) spanLe where
  total a b := by
    rcases Nat.lt_trichotomy a.1 b.1 with h | h | h
    · exact Or.inl (Or.inl h)
    · rcases Nat.le_total a.2 b.2 with h2 | h2
      · exact Or.inl (Or.inr ⟨h, h2⟩)
      · exact Or.inr (Or.inr ⟨h.symm, h2⟩)
    · exact Or.inr (Or.inl h)

instance : IsTrans (Nat × Nat) spanLe where
  trans a b c hab hbc := by
    rcases hab with h | ⟨he, h2⟩ <;> rcases hbc with h' | ⟨he', h2'⟩
    · exact Or.inl (Nat.lt_trans h h')
    · exact Or.inl (he' ▸ h)
    · exact Or.inl (he ▸ h')
    · exact Or.inr ⟨he.trans he', Nat.le_trans h2 h2'⟩

/-- Python `sorted` on a list of `(start, end)` tuples. -/
def sortSpans (l : List (Nat × Nat)) : List (Nat × Nat) :=
  List.insertionSort spanLe l

/-- The containment test of the aggregator's filtering loop: `i` is
discarded when some distinct span `j` of the collection fully contains it
(`j.start ≤ i.start` and `i.end ≤ j.end`) and is strictly longer.  Lengths
are compared over `Int`, as Python subtraction does not truncate. -/
def coveredByLonger (all : List (Nat × Nat)) (i : Nat × Nat) : Bool :=
  all.any fun j =>
    decide (j ≠ i ∧ j.1 ≤ i.1 ∧ i.2 ≤ j.2 ∧
      (i.2 : Int) - (i.1 : Int) < (j.2 : Int) - (j.1 : Int))

/-- Embedding of `find_longest_pattern_matches` (utils.py, lines 267-328),
restricted to its span-aggregation core: the raw spans collected from the
regex passes are the input list.  Mirrors
`sorted(list(set(all_raw_matches)))`, the containment filter, and the final
`.sort()`. -/
def find_longest_pattern_matches (raw : List (Nat × Nat)) : List (Nat × Nat) :=
  let all := sortSpans raw.dedup
  let final := all.filter fun i => !coveredByLonger all i
  sortSpans final

/-- The discard condition as a proposition over the raw input multiset. -/
def HasLongerContainer (raw : List (Nat × Nat)) (x : Nat × Nat) : Prop :=
  ∃ j ∈ raw, j ≠ x ∧ j.1 ≤ x.1 ∧ x.2 ≤ j.2 ∧
    (x.2 : Int) - (x.1 : Int) < (j.2 : Int) - (j.1 : Int)

instance (raw : List (Nat × Nat)) (x : Nat × Nat) :
    Decidable (HasLongerContainer raw x) := by
  unfold HasLongerContainer; exact inferInstance

theorem mem_sortSpans {l : List (Nat × Nat)} {x : Nat × Nat} :
    x ∈ sortSpans l ↔ x ∈ l :=
  List.mem_insertionSort spanLe

theorem sortSpans_sorted (l : List (Nat × Nat)) :
    List.Sorted spanLe (sortSpans l) :=
  List.sorted_insertionSort spanLe l

theorem sortSpans_nodup {l : List (Nat × Nat)} (h : l.Nodup) :
    (sortSpans l).Nodup :=
  (List.perm_insertionSort spanLe l).nodup_iff.mpr h

theorem coveredByLonger_iff {all : List (Nat × Nat)} {x : Nat × Nat} :
    coveredByLonger all x = true ↔ HasLongerContainer all x := by
  simp [coveredByLonger, HasLongerContainer, List.any_eq_true]

theorem hasLongerContainer_congr {l₁ l₂ : List (Nat × Nat)} {x : Nat × Nat}
    (h : ∀ j, j ∈ l₁ ↔ j ∈ l₂) :
    HasLongerContainer l₁ x ↔ HasLongerContainer l₂ x := by
  constructor
  · rintro ⟨j, hj, hrest⟩; exact ⟨j, (h j).mp hj, hrest⟩
  · rintro ⟨j, hj, hrest⟩; exact ⟨j, (h j).mpr hj, hrest⟩

/-- Membership characterisation of the aggregator output. -/
theorem mem_find_longest {raw : List (Nat × Nat)} {x : Nat × Nat} :
    x ∈ find_longest_pattern_matches raw ↔
      x ∈ raw ∧ ¬ HasLongerContainer raw x := by
  unfold find_longest_pattern_matches
  have hall : ∀ j, j ∈ sortSpans raw.dedup ↔ j ∈ raw := by
    intro j; rw [mem_sortSpans, List.mem_dedup]
  rw [mem_sortSpans, List.mem_filter]
  constructor
  · rintro ⟨hx, hcov⟩
    refine ⟨(hall x).mp hx, ?_⟩
    rw [Bool.not_eq_eq_eq_not, Bool.not_true] at hcov
    intro hcon
    have : coveredByLonger (sortSpans raw.dedup) x = true :=
      coveredByLonger_iff.mpr ((hasLongerContainer_congr hall).mpr hcon)
    simp [this] at hcov
  · rintro ⟨hx, hcon⟩
    refine ⟨(hall x).mpr hx, ?_⟩
    rw [Bool.not_eq_eq_eq_not, Bool.not_true]
    by_contra h
    have h' : coveredByLonger (sortSpans raw.dedup) x = true := by
      cases hb : coveredByLonger (sortSpans raw.dedup) x
      · simp [hb] at h
      · rfl
    exact hcon ((hasLongerContainer_congr hall).mp (coveredByLonger_iff.mp h'))

theorem find_longest_sorted (raw : List (Nat × Nat)) :
    List.Sorted spanLe (find_longest_pattern_matches raw) :=
  sortSpans_sorted _

theorem find_longest_nodup (raw : List (Nat × Nat)) :
    (find_longest_pattern_matches raw).Nodup := by
  unfold find_longest_pattern_matches
  exact sortSpans_nodup ((sortSpans_nodup raw.nodup_dedup).filter _)

/-! ## Decimal rendering of placeholder indices -/

/-- Fuelled decimal-digit computation (structural, so that closed values
reduce in the kernel). -/
def natDigitsF : Nat → Nat → List Char
  | 0, _ => []
  | fuel + 1, n =>
      if n < 10 then [Nat.digitChar n]
      else natDigitsF fuel (n / 10) ++ [Nat.digitChar (n % 10)]

/-- Decimal digits of `n`, most significant first (no leading zeros for
positive numbers; `0` renders as `"0"`). -/
def natDigits (n : Nat) : List Char :=
  natDigitsF (n + 1) n

/-- Decimal string of a natural number. -/
def natRepr (n : Nat) : String :=
  ⟨natDigits n⟩

theorem natDigitsF_irrel :
    ∀ f1 f2 n, n < f1 → n < f2 → natDigitsF f1 n = natDigitsF f2 n := by
  intro f1
  induction f1 with
  | zero => intro f2 n h1; omega
  | succ f1 ih =>
    intro f2 n h1 h2
    cases f2 with
    | zero => omega
    | succ f2 =>
      rw [natDigitsF, natDigitsF]
      split
      · rfl
      · rename_i hn
        have hdiv : n / 10 < n :=
          Nat.div_lt_self (by omega) (by decide)
        rw [ih f2 (n / 10) (by omega) (by omega)]

theorem natDigits_eq (n : Nat) :
    natDigits n = if n < 10 then [Nat.digitChar n]
      else natDigits (n / 10) ++ [Nat.digitChar (n % 10)] := by
  show natDigitsF (n + 1) n = _
  rw [natDigitsF]
  split
  · rfl
  · rename_i hn
    have hdiv : n / 10 < n := Nat.div_lt_self (by omega) (by decide)
    rw [natDigitsF_irrel n (n / 10 + 1) (n / 10) (by omega) (by omega)]
    rfl

theorem natDigits_ne_nil (n : Nat) : natDigits n ≠ [] := by
  rw [natDigits_eq n]
  split
  · simp
  · simp

theorem digitChar_inj {a b : Nat} (ha : a < 10) (hb : b < 10)
    (h : Nat.digitChar a = Nat.digitChar b) : a = b := by
  have key : ∀ x y : Fin 10, Nat.digitChar x.val = Nat.digitChar y.val → x = y := by decide
  have := key ⟨a, ha⟩ ⟨b, hb⟩ h
  exact congrArg Fin.val this

theorem natDigits_inj : ∀ {a b : Nat}, natDigits a = natDigits b → a = b := by
  intro a
  induction a using Nat.strong_induction_on with
  | _ a ih =>
    intro b h
    rw [natDigits_eq a, natDigits_eq b] at h
    split at h <;> split at h
    · rename_i ha hb
      exact digitChar_inj ha hb (List.singleton_injective h)
    · rename_i ha hb
      exfalso
      have hlen := congrArg List.length h
      have hne := natDigits_ne_nil (b / 10)
      simp only [List.length_append, List.length_singleton] at hlen
      have : (natDigits (b / 10)).length = 0 := by omega
      exact hne (List.length_eq_zero.mp this)
    · rename_i ha hb
      exfalso
      have hlen := congrArg List.length h
      have hne := natDigits_ne_nil (a / 10)
      simp only [List.length_append, List.length_singleton] at hlen
      have : (natDigits (a / 10)).length = 0 := by omega
      exact hne (List.length_eq_zero.mp this)
    · rename_i ha hb
      have := List.append_inj' h (by simp)
      obtain ⟨h1, h2⟩ := this
      have hdiv : a / 10 = b / 10 := by
        refine ih (a / 10) ?_ h1
        exact Nat.div_lt_self (Nat.lt_of_lt_of_le (by decide) (Nat.le_of_not_lt ha)) (by decide)
      have hmod : a % 10 = b % 10 := by
        have := List.singleton_injective h2
        exact digitChar_inj (Nat.mod_lt _ (by decide)) (Nat.mod_lt _ (by decide)) this
      omega

theorem natRepr_inj {a b : Nat} (h : natRepr a = natRepr b) : a = b := by
  apply natDigits_inj
  have : (natRepr a).data = (natRepr b).data := congrArg String.data h
  exact this

/-! ## PlaceholderCodec (modelled from the spec)

The reversible, counter-based placeholder operator is imported by
`pii_anonymizer.py` from `ilsp_athenarc_asep_anonymizer.anonymizers.custom_replace`,
a module absent from the available sources; only its caller and a
non-reversible variant are present.  The definitions below are therefore
modelled from the spec (§4.2 PlaceholderCodec). -/

/-- Modelled from the spec: the session `EntityMapping`,
`Map<entity_type, Map<original_value, placeholder index>>`.  The per-type
map is an association list, newest entry first; the recorded placeholder
token of an entry `(v, i)` under type `t` is `placeholderString t i`. -/
def EntityMapping : Type :=
  List (String × List (String × Nat))

/-- Modelled from the spec: the placeholder token
`\x7b\x7bENTITY_TYPE_INDEX\x7d\x7d` of reversible mode. -/
def placeholderString (t : String) (i : Nat) : String :=
  "\x7b\x7b" ++ t ++ "_" ++ natRepr i ++ "\x7d\x7d"

/-- Look up the per-type map of `t`. -/
def lookupType (m : EntityMapping) (t : String) : Option (List (String × Nat)) :=
  match m with
  | [] => none
  | (t', l) :: rest => if t' = t then some l else lookupType rest t

/-- The entries recorded for entity type `t` (empty when `t` is absent). -/
def typeList (m : EntityMapping) (t : String) : List (String × Nat) :=
  (lookupType m t).getD []

/-- Look up the index recorded for original value `v`. -/
def lookupVal (l : List (String × Nat)) (v : String) : Option Nat :=
  match l with
  | [] => none
  | (v', i) :: rest => if v' = v then some i else lookupVal rest v

/-- Largest index present in a per-type map (`0` when empty). -/
def maxIndex (l : List (String × Nat)) : Nat :=
  l.foldr (fun p acc => max p.2 acc) 0

/-- Replace the per-type map of `t` (first occurrence), inserting at the
end when `t` has no entry yet. -/
def updateType (t : String) (l : List (String × Nat)) :
    EntityMapping → EntityMapping
  | [] => [(t, l)]
  | (t', l') :: rest =>
      if t' = t then (t, l) :: rest else (t', l') :: updateType t l rest

/-- Modelled from the spec:
`Anonymize(original_value, entity_type, mapping) → placeholder_token`.
If `entity_type` is not yet present, insert it with index 0; if
`original_value` is already present under `entity_type`, return its
recorded placeholder unchanged; otherwise assign
`max(existing indices) + 1`. -/
def anonymizeValue (t v : String) (m : EntityMapping) :
    String × EntityMapping :=
  match lookupType m t with
  | none => (placeholderString t 0, (t, [(v, 0)]) :: m)
  | some l =>
      match lookupVal l v with
      | some i => (placeholderString t i, m)
      | none =>
          let i := maxIndex l + 1
          (placeholderString t i, updateType t ((v, i) :: l) m)

/-- Modelled from the spec:
`Deanonymize(placeholder_value, entity_type, mapping) → original_value`:
look up `entity_type`, then reverse-search the per-type map for a key
whose recorded placeholder token equals `placeholder_value`; `none` plays
the role of the `MappingNotFound` failure. -/
def deanonymizeValue (t ph : String) (m : EntityMapping) : Option String :=
  match lookupType m t with
  | none => none
  | some l =>
      (l.find? fun p => placeholderString t p.2 == ph).map (·.1)

/-- One anonymization session: anonymize a list of
`(entity_type, original_value)` pairs in order, threading the mapping. -/
def runSession : List (String × String) → EntityMapping →
    List String × EntityMapping
  | [], m => ([], m)
  | (t, v) :: rest, m =>
      let (p, m') := anonymizeValue t v m
      let (ps, m'') := runSession rest m'
      (p :: ps, m'')

/-- Well-formedness of a per-type map: indices strictly decrease from the
newest entry to the oldest (so they are pairwise distinct). -/
def WFlist (l : List (String × Nat)) : Prop :=
  l.Pairwise fun a b => b.2 < a.2

/-- Well-formedness of a mapping: every per-type map is well formed. -/
def WFmap (m : EntityMapping) : Prop :=
  ∀ t l, lookupType m t = some l → WFlist l

theorem data_append (s u : String) : (s ++ u).data = s.data ++ u.data := rfl

theorem placeholderString_inj {t : String} {i j : Nat}
    (h : placeholderString t i = placeholderString t j) : i = j := by
  apply natRepr_inj
  unfold placeholderString at h
  have hd := congrArg String.data h
  simp only [data_append] at hd
  have h1 := List.append_cancel_right hd
  have h2 := List.append_cancel_left h1
  exact congrArg String.mk h2

theorem maxIndex_ge {l : List (String × Nat)} {p : String × Nat}
    (h : p ∈ l) : p.2 ≤ maxIndex l := by
  induction l with
  | nil => cases h
  | cons q rest ih =>
    rcases List.mem_cons.mp h with rfl | h'
    · exact Nat.le_max_left _ _
    · exact Nat.le_trans (ih h') (Nat.le_max_right _ _)

theorem lookupVal_mem {l : List (String × Nat)} {v : String} {i : Nat}
    (h : lookupVal l v = some i) : (v, i) ∈ l := by
  induction l with
  | nil => simp [lookupVal] at h
  | cons q rest ih =>
    rw [lookupVal] at h
    split at h
    · rename_i he
      cases q with
      | mk v' i' =>
        simp only at he
        injection h with h
        subst he; subst h
        exact List.mem_cons_self _ _
    · exact List.mem_cons_of_mem _ (ih h)

theorem lookupVal_eq_none_iff {l : List (String × Nat)} {v : String} :
    lookupVal l v = none ↔ ∀ i, (v, i) ∉ l := by
  induction l with
  | nil => simp [lookupVal]
  | cons q rest ih =>
    obtain ⟨v', i'⟩ := q
    rw [lookupVal]
    split
    · rename_i he
      subst he
      constructor
      · intro h; cases h
      · intro h
        exact absurd (List.mem_cons_self _ _) (h i')
    · rename_i he
      rw [ih]
      constructor
      · intro h i hmem
        rcases List.mem_cons.mp hmem with hq | h'
        · exact he (congrArg Prod.fst hq.symm)
        · exact h i h'
      · intro h i h'
        exact h i (List.mem_cons_of_mem _ h')

/-- Case equation: fresh entity type. -/
theorem anonymizeValue_new_type {t v : String} {m : EntityMapping}
    (hl : lookupType m t = none) :
    anonymizeValue t v m = (placeholderString t 0, (t, [(v, 0)]) :: m) := by
  simp [anonymizeValue, hl]

/-- Case equation: memoized original value. -/
theorem anonymizeValue_memo {t v : String} {m : EntityMapping}
    {l : List (String × Nat)} {i : Nat} (hl : lookupType m t = some l)
    (hv : lookupVal l v = some i) :
    anonymizeValue t v m = (placeholderString t i, m) := by
  simp [anonymizeValue, hl, hv]

/-- Case equation: fresh original value of a known entity type. -/
theorem anonymizeValue_new_value {t v : String} {m : EntityMapping}
    {l : List (String × Nat)} (hl : lookupType m t = some l)
    (hv : lookupVal l v = none) :
    anonymizeValue t v m =
      (placeholderString t (maxIndex l + 1),
        updateType t ((v, maxIndex l + 1) :: l) m) := by
  simp [anonymizeValue, hl, hv]

theorem lookupType_updateType_self (t : String) (l : List (String × Nat))
    (m : EntityMapping) : lookupType (updateType t l m) t = some l := by
  induction m with
  | nil => simp [updateType, lookupType]
  | cons q rest ih =>
    cases q with
    | mk t' l' =>
      rw [updateType]
      split
      · rename_i he; simp [lookupType, he]
      · rename_i he; simp [lookupType, he, ih]

theorem lookupType_updateType_other {t t' : String} (hne : t ≠ t')
    (l : List (String × Nat)) (m : EntityMapping) :
    lookupType (updateType t l m) t' = lookupType m t' := by
  induction m with
  | nil => simp [updateType, lookupType, fun h => hne h]
  | cons q rest ih =>
    cases q with
    | mk t'' l'' =>
      rw [updateType]
      split
      · rename_i he
        subst he
        simp [lookupType, fun h => hne h]
      · rw [lookupType, lookupType, ih]

/-- `anonymizeValue` preserves well-formedness of the mapping. -/
theorem anonymizeValue_WF {t v : String} {m : EntityMapping}
    (hwf : WFmap m) : WFmap (anonymizeValue t v m).2 := by
  cases hl : lookupType m t with
  | none =>
    rw [anonymizeValue_new_type hl]
    intro t' l' h
    rw [lookupType] at h
    split at h
    · injection h with h
      subst h
      exact List.pairwise_singleton _ _
    · exact hwf t' l' h
  | some l =>
    cases hv : lookupVal l v with
    | some i => rw [anonymizeValue_memo hl hv]; exact hwf
    | none =>
      rw [anonymizeValue_new_value hl hv]
      intro t' l' h
      by_cases he : t = t'
      · subst he
        rw [lookupType_updateType_self] at h
        injection h with h
        subst h
        constructor
        · intro p hp
          exact Nat.lt_succ_of_le (maxIndex_ge hp)
        · exact hwf t l hl
      · rw [lookupType_updateType_other he] at h
        exact hwf t' l' h

/-- Entries recorded in the mapping persist through `anonymizeValue`. -/
theorem anonymizeValue_mono {t v : String} {m : EntityMapping}
    {t' : String} {p : String × Nat} (h : p ∈ typeList m t') :
    p ∈ typeList (anonymizeValue t v m).2 t' := by
  cases hl : lookupType m t with
  | none =>
    rw [anonymizeValue_new_type hl]
    simp only [typeList, lookupType]
    split
    · rename_i he
      subst he
      simp only [typeList, hl, Option.getD_none] at h
      cases h
    · exact h
  | some l =>
    cases hv : lookupVal l v with
    | some i => rw [anonymizeValue_memo hl hv]; exact h
    | none =>
      rw [anonymizeValue_new_value hl hv]
      simp only [typeList]
      by_cases he : t = t'
      · subst he
        rw [lookupType_updateType_self]
        simp only [typeList, hl, Option.getD_some] at h
        exact List.mem_cons_of_mem _ h
      · rw [lookupType_updateType_other he]
        exact h

/-- The placeholder returned by `anonymizeValue` is recorded in the
resulting mapping: some entry `(v, i)` exists with that placeholder. -/
theorem anonymizeValue_records {t v : String} {m : EntityMapping} :
    ∃ i, (anonymizeValue t v m).1 = placeholderString t i ∧
      (v, i) ∈ typeList (anonymizeValue t v m).2 t := by
  cases hl : lookupType m t with
  | none =>
    rw [anonymizeValue_new_type hl]
    refine ⟨0, rfl, ?_⟩
    simp [typeList, lookupType]
  | some l =>
    cases hv : lookupVal l v with
    | some i =>
      rw [anonymizeValue_memo hl hv]
      refine ⟨i, rfl, ?_⟩
      simp only [typeList, hl, Option.getD_some]
      exact lookupVal_mem hv
    | none =>
      rw [anonymizeValue_new_value hl hv]
      refine ⟨maxIndex l + 1, rfl, ?_⟩
      simp only [typeList, lookupType_updateType_self, Option.getD_some]
      exact List.mem_cons_self _ _

/-- In a well-formed per-type map, at most one entry carries any index. -/
theorem WFlist_index_unique {l : List (String × Nat)} (hwf : WFlist l)
    {p q : String × Nat} (hp : p ∈ l) (hq : q ∈ l) (h : p.2 = q.2) :
    p = q := by
  induction l with
  | nil => cases hp
  | cons a rest ih =>
    have hpw := List.pairwise_cons.mp hwf
    rcases List.mem_cons.mp hp with rfl | hp' <;>
      rcases List.mem_cons.mp hq with rfl | hq'
    · rfl
    · exact absurd (h ▸ hpw.1 q hq') (Nat.lt_irrefl _)
    · exact absurd (h ▸ hpw.1 p hp') (by omega)
    · exact ih hpw.2 hp' hq'

/-- Reverse lookup recovers the original value of any recorded entry of a
well-formed mapping. -/
theorem deanonymizeValue_correct {t v : String} {i : Nat}
    {m : EntityMapping} (hwf : WFmap m) (h : (v, i) ∈ typeList m t) :
    deanonymizeValue t (placeholderString t i) m = some v := by
  cases hl : lookupType m t with
  | none => simp [typeList, hl] at h
  | some l =>
    simp only [deanonymizeValue, hl]
    simp only [typeList, hl, Option.getD_some] at h
    have hwl : WFlist l := hwf t l hl
    cases hf : l.find? fun p => placeholderString t p.2 == placeholderString t i with
    | none =>
      exfalso
      have := List.find?_eq_none.mp hf (v, i) h
      simp at this
    | some p =>
      have hpred := List.find?_some hf
      have hmem := List.mem_of_find?_eq_some hf
      have hidx : p.2 = i := placeholderString_inj (by simpa using hpred)
      have : p = (v, i) := WFlist_index_unique hwl hmem h (by simp [hidx])
      rw [this]
      rfl

/-- A session started on a well-formed mapping ends on one. -/
theorem runSession_WF {pairs : List (String × String)} {m : EntityMapping}
    (hwf : WFmap m) : WFmap (runSession pairs m).2 := by
  induction pairs generalizing m with
  | nil => exact hwf
  | cons q rest ih =>
    cases q with
    | mk t v =>
      rw [runSession]
      exact ih (anonymizeValue_WF hwf)

/-- Entries persist through a whole session. -/
theorem runSession_mono {pairs : List (String × String)} {m : EntityMapping}
    {t : String} {p : String × Nat} (h : p ∈ typeList m t) :
    p ∈ typeList (runSession pairs m).2 t := by
  induction pairs generalizing m with
  | nil => exact h
  | cons q rest ih =>
    cases q with
    | mk t' v' =>
      rw [runSession]
      exact ih (anonymizeValue_mono h)

theorem emptyMap_WF : WFmap ([] : EntityMapping) := by
  intro t l h
  simp [lookupType] at h

/-! ## Reversible substitution over a text (modelled from the spec)

`Anonymize(text, spans)` applies a resolved, ascending, non-overlapping
span sequence to a text, replacing each span by its placeholder token and
recording the `(entity_type, masked_start, masked_end)` of every
substitution together with the session mapping; `Deanonymize` replaces
each recorded masked span by the original value recovered from the
mapping.  Both are modelled from the spec (§4.2 substitution order and
§6 reversible mode), since the reversible operator module is absent from
the available sources. -/

/-- The span sequence is ascending, non-overlapping, and in bounds,
starting at cursor `pos` over a text of length `len`. -/
def SpansOK : Nat → List (String × Nat × Nat) → Nat → Prop
  | pos, [], len => pos ≤ len
  | pos, (_, s, e) :: rest, len => pos ≤ s ∧ s < e ∧ e ≤ len ∧ SpansOK e rest len

instance spansOKDec : (spans : List (String × Nat × Nat)) → (pos len : Nat) →
    Decidable (SpansOK pos spans len)
  | [], pos, len => inferInstanceAs (Decidable (pos ≤ len))
  | (_, _, e) :: rest, pos, len =>
      have := spansOKDec rest e len
      inferInstanceAs (Decidable (pos ≤ _ ∧ _ ∧ _ ∧ SpansOK e rest len))

/-- The substring `text[s:e]` as a `String`. -/
def sliceStr (text : List Char) (s e : Nat) : String :=
  ⟨(text.drop s).take (e - s)⟩

/-- Modelled from the spec: substitute each resolved span of the suffix
`text[pos:]` by its placeholder, threading the entity mapping and
recording the masked offsets of each substitution (`outPos` is the masked
offset of `text[pos:]`). -/
def maskText (text : List Char) :
    Nat → Nat → List (String × Nat × Nat) → EntityMapping →
    List Char × List (String × Nat × Nat) × EntityMapping
  | pos, _, [], m => (text.drop pos, [], m)
  | pos, outPos, (t, s, e) :: rest, m =>
      let pre := (text.drop pos).take (s - pos)
      let r1 := anonymizeValue t (sliceStr text s e) m
      let ms := outPos + pre.length
      let me := ms + r1.1.data.length
      let r2 := maskText text e me rest r1.2
      (pre ++ r1.1.data ++ r2.1, (t, ms, me) :: r2.2.1, r2.2.2)

/-- Modelled from the spec: replace each recorded masked span
`[ms, me)` by the original value recovered from the mapping (`pos` is the
masked offset of the residual `masked` suffix); fails with `none`
(`MappingNotFound`) when a lookup fails. -/
def deanonymizeText (m : EntityMapping) :
    List Char → Nat → List (String × Nat × Nat) → Option (List Char)
  | masked, _, [] => some masked
  | masked, pos, (t, ms, me) :: rest =>
      let pre := masked.take (ms - pos)
      let ph : String := ⟨(masked.drop (ms - pos)).take (me - ms)⟩
      match deanonymizeValue t ph m with
      | none => none
      | some v =>
          (deanonymizeText m (masked.drop (me - pos)) me rest).map
            fun tail => pre ++ v.data ++ tail

/-- `maskText` preserves well-formedness of the mapping. -/
theorem maskText_WF {text : List Char}
    {spans : List (String × Nat × Nat)} {pos outPos : Nat}
    {m : EntityMapping} (hwf : WFmap m) :
    WFmap (maskText text pos outPos spans m).2.2 := by
  induction spans generalizing pos outPos m with
  | nil => exact hwf
  | cons q rest ih =>
    obtain ⟨t, s, e⟩ := q
    rw [maskText]
    exact ih (anonymizeValue_WF hwf)

/-- Mapping entries persist through `maskText`. -/
theorem maskText_mono {text : List Char}
    {spans : List (String × Nat × Nat)} {pos outPos : Nat}
    {m : EntityMapping} {t' : String} {p : String × Nat}
    (h : p ∈ typeList m t') :
    p ∈ typeList (maskText text pos outPos spans m).2.2 t' := by
  induction spans generalizing pos outPos m with
  | nil => exact h
  | cons q rest ih =>
    obtain ⟨t, s, e⟩ := q
    rw [maskText]
    exact ih (anonymizeValue_mono h)

/-- Round trip of the substitution: deanonymizing the masked suffix with
the session's final mapping restores the original suffix. -/
theorem maskText_roundtrip (text : List Char) :
    ∀ (spans : List (String × Nat × Nat)) (pos outPos : Nat)
      (m : EntityMapping), WFmap m → SpansOK pos spans text.length →
      deanonymizeText (maskText text pos outPos spans m).2.2
        (maskText text pos outPos spans m).1 outPos
        (maskText text pos outPos spans m).2.1 = some (text.drop pos) := by
  intro spans
  induction spans with
  | nil =>
    intro pos outPos m _ _
    rw [maskText, deanonymizeText]
  | cons q rest ih =>
    intro pos outPos m hwf hok
    obtain ⟨t, s, e⟩ := q
    obtain ⟨hps, hse, hel, hrest⟩ := hok
    rw [maskText]
    simp only
    obtain ⟨i, hp, hrec⟩ :=
      anonymizeValue_records (t := t) (v := sliceStr text s e) (m := m)
    set pre := (text.drop pos).take (s - pos) with hpre
    set r1 := anonymizeValue t (sliceStr text s e) m with hr1
    set ms := outPos + pre.length with hms
    set me := ms + r1.1.data.length with hme
    set r2 := maskText text e me rest r1.2 with hr2
    have hwf' : WFmap r1.2 := anonymizeValue_WF hwf
    have hwfF : WFmap r2.2.2 := maskText_WF hwf'
    have hrecF : (sliceStr text s e, i) ∈ typeList r2.2.2 t :=
      maskText_mono hrec
    rw [deanonymizeText]
    have hmasked :
        pre ++ r1.1.data ++ r2.1 = pre ++ (r1.1.data ++ r2.1) := by
      rw [List.append_assoc]
    have htake : (pre ++ r1.1.data ++ r2.1).take (ms - outPos) = pre := by
      rw [hmasked]
      have : ms - outPos = pre.length := by omega
      rw [this, List.take_left]
    have hdrop1 :
        (pre ++ r1.1.data ++ r2.1).drop (ms - outPos) = r1.1.data ++ r2.1 := by
      rw [hmasked]
      have : ms - outPos = pre.length := by omega
      rw [this, List.drop_left]
    have hph :
        ((pre ++ r1.1.data ++ r2.1).drop (ms - outPos)).take (me - ms) =
          r1.1.data := by
      rw [hdrop1]
      have : me - ms = r1.1.data.length := by omega
      rw [this, List.take_left]
    have hphstr :
        (⟨((pre ++ r1.1.data ++ r2.1).drop (ms - outPos)).take (me - ms)⟩ :
          String) = r1.1 := by
      rw [hph]
    have hdean : deanonymizeValue t
        (⟨((pre ++ r1.1.data ++ r2.1).drop (ms - outPos)).take (me - ms)⟩ :
          String) r2.2.2 = some (sliceStr text s e) := by
      rw [hphstr, hp]
      exact deanonymizeValue_correct hwfF hrecF
    rw [hdean]
    have hdrop2 :
        (pre ++ r1.1.data ++ r2.1).drop (me - outPos) = r2.1 := by
      have : me - outPos = (pre ++ r1.1.data).length := by
        rw [List.length_append]; omega
      rw [this, List.drop_left]
    rw [htake, hdrop2]
    have hih : deanonymizeText r2.2.2 r2.1 me r2.2.1 = some (text.drop e) := by
      rw [hr2]
      exact ih e me r1.2 hwf' hrest
    have hstep1 :
        (sliceStr text s e).data ++ text.drop e = text.drop s := by
      have h := List.drop_take_append_drop text s (e - s)
      rwa [show s + (e - s) = e by omega] at h
    have hstep2 : pre ++ text.drop s = text.drop pos := by
      have h := List.drop_take_append_drop text pos (s - pos)
      rwa [show pos + (s - pos) = s by omega] at h
    rw [hih]
    show some (pre ++ (sliceStr text s e).data ++ text.drop e) =
      some (text.drop pos)
    rw [List.append_assoc, hstep1, hstep2]

/-! ## AlignmentResolver (`match_entities`, utils.py lines 119-215) -/

/-- An entity dictionary: `start`/`stop` are the `'start'`/`'end'` masked
offsets; the three optional fields are the enrichment added by the
resolver (`'start_position'`, `'end_position'`, `'orig_text'`). -/
structure MEntity where
  start : Nat
  stop : Nat
  start_position : Option Nat := none
  end_position : Option Nat := none
  orig_text : Option String := none
deriving DecidableEq

/-- Python `haystack.find(needle, start)` for a nonempty needle: the
smallest `i ≥ start` at which `needle` occurs; `none` for Python's `-1`. -/
def findSubFrom (hay needle : List Char) (start : Nat) : Option Nat :=
  (List.range (hay.length + 1)).find? fun i =>
    decide (start ≤ i) && needle.isPrefixOf (hay.drop i)

/-- Python `haystack.find(needle)` / `haystack.index(needle)`. -/
def findSub (hay needle : List Char) : Option Nat :=
  findSubFrom hay needle 0

/-- One cleanup pass of `match_entities`: remove every occurrence of `c`
that is immediately followed by another `c` (the Python comprehension
keeps `ch` at `i` unless `ch == c and l[i+1] == c`). -/
def dropDoubled (c : Char) : List Char → List Char
  | [] => []
  | [a] => [a]
  | a :: b :: rest =>
      if a = c ∧ b = c then dropDoubled c (b :: rest)
      else a :: dropDoubled c (b :: rest)

/-- The two cleanup passes applied to a context window: first the `'{'`
pass, then the `'}'` pass. -/
def cleanContext (l : List Char) : List Char :=
  dropDoubled '\x7d' (dropDoubled '\x7b' l)

def pyIsSpace (c : Char) : Bool :=
  c.isWhitespace

/-- Python `str.strip()`. -/
def pyStrip (l : List Char) : List Char :=
  ((l.dropWhile pyIsSpace).reverse.dropWhile pyIsSpace).reverse

/-- Python `str.split()` (split on whitespace runs, no empty words). -/
def pySplitAux : List Char → List Char → List (List Char)
  | [], acc => if acc = [] then [] else [acc.reverse]
  | c :: rest, acc =>
      if pyIsSpace c then
        if acc = [] then pySplitAux rest []
        else acc.reverse :: pySplitAux rest []
      else pySplitAux rest (c :: acc)

def pySplit (l : List Char) : List (List Char) :=
  pySplitAux l []

/-- `masked_text[mask_start - min(20, mask_start) : mask_start]`. -/
def contextBefore (masked : List Char) (mask_start : Nat) : List Char :=
  let cbl := min 20 mask_start
  (masked.drop (mask_start - cbl)).take cbl

/-- `masked_text[mask_end : mask_end + min(20, len - mask_end)]`. -/
def contextAfter (masked : List Char) (mask_end : Nat) : List Char :=
  let cal := min 20 (masked.length - mask_end)
  (masked.drop mask_end).take cal

/-- The primary (context-anchoring) strategy: requires both cleaned
contexts nonempty, locates the before context (`str.index`, i.e. first
occurrence), then the after context from the end of the before match, and
succeeds only when the after match starts strictly beyond it. -/
def tryPrimary (orig cb ca : List Char) : Option (Nat × Nat) :=
  if cb ≠ [] ∧ ca ≠ [] then
    match findSub orig cb with
    | none => none
    | some bp =>
        let be := bp + cb.length
        match findSubFrom orig ca be with
        | none => none
        | some ap => if be < ap then some (be, ap) else none
  else none

/-- The token fallback: last whitespace-delimited word of the before
context and first word of the after context, located independently. -/
def tryFallback (orig cb ca : List Char) : Option (Nat × Nat) :=
  match (pySplit (pyStrip cb)).getLast?, (pySplit (pyStrip ca)).head? with
  | some lwb, some fwa =>
      match findSub orig lwb with
      | none => none
      | some bp =>
          let be := bp + lwb.length
          match findSubFrom orig fwa be with
          | none => none
          | some ap => if be < ap then some (be, ap) else none
  | _, _ => none

/-- Processing of a single entity by `match_entities`. -/
def processEntity (orig masked : List Char) (ent : MEntity) : MEntity :=
  let cb := cleanContext (contextBefore masked ent.start)
  let ca := cleanContext (contextAfter masked ent.stop)
  match tryPrimary orig cb ca with
  | some (os, oe) =>
      { ent with start_position := some os, end_position := some oe,
                 orig_text := some ⟨(orig.drop os).take (oe - os)⟩ }
  | none =>
      match tryFallback orig cb ca with
      | some (os, oe) =>
          { ent with start_position := some os, end_position := some oe,
                     orig_text := some ⟨pyStrip ((orig.drop os).take (oe - os))⟩ }
      | none => ent

/-- Embedding of `match_entities` (utils.py): each entity is processed
independently and exactly one result is appended per input entity. -/
def match_entities (orig masked : List Char) (entities : List MEntity) :
    List MEntity :=
  entities.map (processEntity orig masked)

/-- The claim's reading of the cleanup step: delimiters `\x7b\x7b` and
`\x7d\x7d` are stripped (removed entirely) from the context windows.
Stated from the spec's words, for comparison with `cleanContext`. -/
def specStrip : List Char → List Char
  | [] => []
  | '\x7b' :: '\x7b' :: rest => specStrip rest
  | '\x7d' :: '\x7d' :: rest => specStrip rest
  | c :: rest => c :: specStrip rest

/-- `processEntity` as the claim describes it: with the delimiters fully
stripped from the context windows. -/
def specProcessEntity (orig masked : List Char) (ent : MEntity) : MEntity :=
  let cb := specStrip (contextBefore masked ent.start)
  let ca := specStrip (contextAfter masked ent.stop)
  match tryPrimary orig cb ca with
  | some (os, oe) =>
      { ent with start_position := some os, end_position := some oe,
                 orig_text := some ⟨(orig.drop os).take (oe - os)⟩ }
  | none =>
      match tryFallback orig cb ca with
      | some (os, oe) =>
          { ent with start_position := some os, end_position := some oe,
                     orig_text := some ⟨pyStrip ((orig.drop os).take (oe - os))⟩ }
      | none => ent

/-- The resolver the claim describes (full delimiter stripping). -/
def specMatchEntities (orig masked : List Char) (entities : List MEntity) :
    List MEntity :=
  entities.map (specProcessEntity orig masked)

/-! ## ParagraphPipeline (`PiiAnonymizer`, pii_anonymizer.py) -/

/-- An analyzer result: `entity_type`, `start`, `end` in the paragraph. -/
structure AnalyzerResult where
  entity_type : String
  start : Nat
  stop : Nat
deriving DecidableEq

/-- An anonymizer-engine result item: masked offsets and operator name. -/
structure AnonItem where
  start : Nat
  stop : Nat
  operator : String
deriving DecidableEq

/-- One element of the `spans` list built by `anonymize_paragraph`. -/
structure SpanDict where
  entity_type : String
  entity_value : String
  operator : String
  start_position : Nat
  end_position : Nat
deriving DecidableEq

/-- The per-paragraph record (`full_text`, `masked`, `spans`). -/
structure ParagraphRecord where
  full_text : List Char
  masked : List Char
  spans : List SpanDict
deriving DecidableEq

def arLe (a b : AnalyzerResult) : Prop :=
  spanLe (a.start, a.stop) (b.start, b.stop)

instance : DecidableRel arLe := fun a b => by
  unfold arLe; exact inferInstance

def itemLe (a b : AnonItem) : Prop :=
  spanLe (a.start, a.stop) (b.start, b.stop)

instance : DecidableRel itemLe := fun a b => by
  unfold itemLe; exact inferInstance

/-- Embedding of `PiiAnonymizer.anonymize_paragraph` (pii_anonymizer.py,
lines 72-148) after the external engine calls: both result lists are
sorted by `(start, end)`, the record is filled, and the `spans` list is
populated from the zipped pairs only when the `assert
len(analyzer_results) == len(anonymization_results.items)` holds; on a
mismatch the `AssertionError` is caught (`traceback.print_exc(); pass`),
leaving `spans` empty.  The returned `Bool` records whether the mismatch
was reported. -/
def anonymize_paragraph (text : List Char)
    (analyzer_results : List AnalyzerResult)
    (anon_text : List Char) (items : List AnonItem) :
    ParagraphRecord × Bool :=
  let ar := List.insertionSort arLe analyzer_results
  let it := List.insertionSort itemLe items
  if ar.length = it.length then
    ({ full_text := text, masked := anon_text,
       spans := List.zipWith (fun a s =>
         { entity_type := a.entity_type,
           entity_value := ⟨(text.drop a.start).take (a.stop - a.start)⟩,
           operator := s.operator,
           start_position := a.start,
           end_position := a.stop }) ar it }, false)
  else
    ({ full_text := text, masked := anon_text, spans := [] }, true)

/-- Python `text.split("\n")`. -/
def splitNL : List Char → List (List Char)
  | [] => [[]]
  | c :: rest =>
      if c = '\n' then [] :: splitNL rest
      else
        match splitNL rest with
        | [] => [[c]]
        | g :: gs => (c :: g) :: gs

/-- A paragraph is blank iff Python's `paragraph.strip()` is falsy. -/
def isBlank (p : List Char) : Bool :=
  p.all pyIsSpace

/-- The loop of `PiiAnonymizer.anonymize`: one record per paragraph whose
`strip()` is truthy, in order (`f` stands for the external detector +
`anonymize_paragraph` call on one paragraph). -/
def anonymizeLoop (f : List Char → ParagraphRecord) :
    List (List Char) → List ParagraphRecord
  | [] => []
  | p :: ps =>
      if isBlank p then anonymizeLoop f ps
      else f p :: anonymizeLoop f ps

/-- Embedding of `PiiAnonymizer.anonymize` (pii_anonymizer.py, lines
150-164). -/
def anonymize (f : List Char → ParagraphRecord) (text : List Char) :
    List ParagraphRecord :=
  anonymizeLoop f (splitNL text)

/-! ## `CustomReplace.operate` (custom_replace.py) -/

/-- The `params` dict as read by `operate`: `params.get` yields `None`
for an absent key, so each field is an `Option`. -/
structure OperateParams where
  new_value : Option String
  entity_type : Option String
deriving DecidableEq

/-- Python `f"{x}"` on an optional string (`None` prints as `"None"`). -/
def pyFstrOpt : Option String → String
  | none => "None"
  | some s => s

/-- Python truthiness of `params.get("new_value")`: falsy iff the key is
absent, `None`, or the empty string. -/
def truthyStr : Option String → Bool
  | none => false
  | some s => s ≠ ""

namespace CustomReplace

def PRE_STRING : String := "\x7b\x7b"

def POST_STRING : String := "\x7d\x7d"

/-- Embedding of `CustomReplace.operate` (custom_replace.py, lines
15-20): `new_val = params.get("new_value"); if not new_val: return
"\x7b\x7b" + f"\x7bparams.get('entity_type')\x7d" + "\x7d\x7d"; return
new_val`. -/
def operate (params : OperateParams) : String :=
  let new_val := params.new_value
  if truthyStr new_val then new_val.getD ""
  else PRE_STRING ++ pyFstrOpt params.entity_type ++ POST_STRING

end CustomReplace

/-! ## Claim theorems -/

/-- C1: for every input list of raw spans, `find_longest_pattern_matches`
is total and its output is exactly the deduplicated input with every span
that is strictly contained in a strictly longer span of the collection
discarded, sorted ascending by `(start, end)` (so it is sorted, has no
duplicates, and its members are characterised by the discard condition);
an empty input yields an empty output. -/
theorem claim_C1 :
    (∀ raw : List (Nat × Nat),
      List.Sorted spanLe (find_longest_pattern_matches raw) ∧
      (find_longest_pattern_matches raw).Nodup ∧
      (∀ x, x ∈ find_longest_pattern_matches raw ↔
        x ∈ raw ∧ ¬ HasLongerContainer raw x)) ∧
    find_longest_pattern_matches [] = [] := by
  constructor
  · intro raw
    exact ⟨find_longest_sorted raw, find_longest_nodup raw,
      fun x => mem_find_longest⟩
  · rfl

theorem claim_C1_witness :
    (0, 5) ∈ find_longest_pattern_matches [(1, 3), (0, 5), (1, 3)] ∧
    (1, 3) ∉ find_longest_pattern_matches [(1, 3), (0, 5), (1, 3)] := by
  have h := claim_C1.1 [(1, 3), (0, 5), (1, 3)]
  constructor
  · exact (h.2.2 (0, 5)).mpr ⟨by decide, by decide⟩
  · intro hmem
    exact ((h.2.2 (1, 3)).mp hmem).2 (by decide)

/-- C4: the aggregator output never holds two distinct spans with one
fully containing the other and strictly longer; two distinct equal-length
spans are both retained, and two spans that partially overlap without
containment are both retained. -/
theorem claim_C4 :
    (∀ raw : List (Nat × Nat), ∀ x ∈ find_longest_pattern_matches raw,
      ∀ y ∈ find_longest_pattern_matches raw, x ≠ y →
        ¬(y.1 ≤ x.1 ∧ x.2 ≤ y.2 ∧
          (x.2 : Int) - (x.1 : Int) < (y.2 : Int) - (y.1 : Int))) ∧
    (∀ a b : Nat × Nat, a ≠ b →
      (a.2 : Int) - (a.1 : Int) = (b.2 : Int) - (b.1 : Int) →
      a ∈ find_longest_pattern_matches [a, b] ∧
      b ∈ find_longest_pattern_matches [a, b]) ∧
    (∀ a b : Nat × Nat,
      a.1 < b.2 → b.1 < a.2 →
      ¬(a.1 ≤ b.1 ∧ b.2 ≤ a.2) → ¬(b.1 ≤ a.1 ∧ a.2 ≤ b.2) →
      a ∈ find_longest_pattern_matches [a, b] ∧
      b ∈ find_longest_pattern_matches [a, b]) := by
  refine ⟨?_, ?_, ?_⟩
  · intro raw x hx y hy hne hcon
    have hx' := mem_find_longest.mp hx
    have hy' := mem_find_longest.mp hy
    exact hx'.2 ⟨y, hy'.1, fun h => hne h.symm, hcon.1, hcon.2.1, hcon.2.2⟩
  · intro a b hne hlen
    constructor
    · refine mem_find_longest.mpr ⟨by simp, ?_⟩
      rintro ⟨j, hj, hjne, h1, h2, h3⟩
      rcases List.mem_pair.mp hj with rfl | rfl
      · exact hjne rfl
      · omega
    · refine mem_find_longest.mpr ⟨by simp, ?_⟩
      rintro ⟨j, hj, hjne, h1, h2, h3⟩
      rcases List.mem_pair.mp hj with rfl | rfl
      · omega
      · exact hjne rfl
  · intro a b hov1 hov2 hnc1 hnc2
    constructor
    · refine mem_find_longest.mpr ⟨by simp, ?_⟩
      rintro ⟨j, hj, hjne, h1, h2, h3⟩
      rcases List.mem_pair.mp hj with rfl | rfl
      · exact hjne rfl
      · exact hnc2 ⟨h1, h2⟩
    · refine mem_find_longest.mpr ⟨by simp, ?_⟩
      rintro ⟨j, hj, hjne, h1, h2, h3⟩
      rcases List.mem_pair.mp hj with rfl | rfl
      · exact hnc1 ⟨h1, h2⟩
      · exact hjne rfl

theorem claim_C4_witness :
    ((0, 4) ∈ find_longest_pattern_matches [(0, 4), (2, 6)] ∧
      (2, 6) ∈ find_longest_pattern_matches [(0, 4), (2, 6)]) ∧
    ((1, 3) ∈ find_longest_pattern_matches [(1, 3), (2, 5)] ∧
      (2, 5) ∈ find_longest_pattern_matches [(1, 3), (2, 5)]) := by
  constructor
  · exact claim_C4.2.1 (0, 4) (2, 6) (by decide) (by decide)
  · exact claim_C4.2.2 (1, 3) (2, 5) (by decide) (by decide)
      (by decide) (by decide)

/-- C2: the placeholder assigned on first sight of a new value of type
`t` is `placeholderString t i` with `i = 0` when `t` is new and
`i = max(existing indices) + 1` otherwise; a value seen again yields its
recorded placeholder with no new index and no state change; within one
session two different values of the same type never share a placeholder;
and the concrete three-span PERSON session yields
`\x7b\x7bPERSON_0\x7d\x7d`, `\x7b\x7bPERSON_0\x7d\x7d`,
`\x7b\x7bPERSON_1\x7d\x7d`. -/
theorem claim_C2 :
    (∀ t v m, lookupType m t = none →
      (anonymizeValue t v m).1 = placeholderString t 0) ∧
    (∀ t v m l, lookupType m t = some l → lookupVal l v = none →
      (anonymizeValue t v m).1 = placeholderString t (maxIndex l + 1)) ∧
    (∀ t v m l i, lookupType m t = some l → lookupVal l v = some i →
      anonymizeValue t v m = (placeholderString t i, m)) ∧
    (∀ pairs t v1 i1 v2 i2,
      (v1, i1) ∈ typeList (runSession pairs []).2 t →
      (v2, i2) ∈ typeList (runSession pairs []).2 t →
      v1 ≠ v2 → placeholderString t i1 ≠ placeholderString t i2) ∧
    (runSession
        [("PERSON", "Γιάννης"), ("PERSON", "Γιάννης"), ("PERSON", "Μαρία")]
        []).1 =
      ["\x7b\x7bPERSON_0\x7d\x7d", "\x7b\x7bPERSON_0\x7d\x7d",
        "\x7b\x7bPERSON_1\x7d\x7d"] := by
  refine ⟨?_, ?_, ?_, ?_, by decide⟩
  · intro t v m hl
    rw [anonymizeValue_new_type hl]
  · intro t v m l hl hv
    rw [anonymizeValue_new_value hl hv]
  · intro t v m l i hl hv
    exact anonymizeValue_memo hl hv
  · intro pairs t v1 i1 v2 i2 h1 h2 hne heq
    have hwf : WFmap (runSession pairs []).2 := runSession_WF emptyMap_WF
    cases hl : lookupType (runSession pairs []).2 t with
    | none =>
      rw [typeList, hl] at h1
      cases h1
    | some l =>
      rw [typeList, hl] at h1 h2
      have hwl := hwf t l hl
      have hi : i1 = i2 := placeholderString_inj heq
      have := WFlist_index_unique hwl h1 h2 (by simp [hi])
      exact hne (congrArg Prod.fst this)

theorem claim_C2_witness :
    (anonymizeValue "PERSON" "Γιάννης" []).1 = placeholderString "PERSON" 0 ∧
    placeholderString "PERSON" 0 ≠ placeholderString "PERSON" 1 := by
  constructor
  · exact claim_C2.1 "PERSON" "Γιάννης" [] rfl
  · exact claim_C2.2.2.2.1 [("PERSON", "a"), ("PERSON", "b")] "PERSON"
      "a" 0 "b" 1 (by decide) (by decide) (by decide)

/-- C3: for every text and every span sequence that resolves to
non-overlapping, ascending, in-bounds spans, deanonymizing the masked
text produced by `maskText` with the entity mapping produced during
anonymization reproduces the original text exactly. -/
theorem claim_C3 (text : List Char) (spans : List (String × Nat × Nat))
    (h : SpansOK 0 spans text.length) :
    deanonymizeText (maskText text 0 0 spans []).2.2
      (maskText text 0 0 spans []).1 0
      (maskText text 0 0 spans []).2.1 = some text := by
  have hrt := maskText_roundtrip text spans 0 0 [] emptyMap_WF h
  simpa using hrt

theorem claim_C3_witness :
    deanonymizeText
        (maskText "ab cd".data 0 0 [("X", 0, 2), ("Y", 3, 5)] []).2.2
        (maskText "ab cd".data 0 0 [("X", 0, 2), ("Y", 3, 5)] []).1 0
        (maskText "ab cd".data 0 0 [("X", 0, 2), ("Y", 3, 5)] []).2.1 =
      some "ab cd".data :=
  claim_C3 "ab cd".data [("X", 0, 2), ("Y", 3, 5)] (by decide)

/-- C5: whenever the number of analyzer spans differs from the number of
substitution items, `anonymize_paragraph` raises nothing and still
returns the record carrying the full text and the masked text with an
empty `spans` sequence, and the mismatch is reported (the caught
`AssertionError` is printed). -/
theorem claim_C5 (text : List Char) (analyzer_results : List AnalyzerResult)
    (anon_text : List Char) (items : List AnonItem)
    (h : analyzer_results.length ≠ items.length) :
    anonymize_paragraph text analyzer_results anon_text items =
      ({ full_text := text, masked := anon_text, spans := [] }, true) := by
  have h1 : (List.insertionSort arLe analyzer_results).length =
      analyzer_results.length :=
    (List.perm_insertionSort arLe analyzer_results).length_eq
  have h2 : (List.insertionSort itemLe items).length = items.length :=
    (List.perm_insertionSort itemLe items).length_eq
  have hcond : ¬((List.insertionSort arLe analyzer_results).length =
      (List.insertionSort itemLe items).length) := by
    rw [h1, h2]; exact h
  simp only [anonymize_paragraph]
  rw [if_neg hcond]

theorem claim_C5_witness :
    anonymize_paragraph "ab".data [⟨"PERSON", 0, 1⟩] "x".data [] =
      ({ full_text := "ab".data, masked := "x".data, spans := [] }, true) :=
  claim_C5 "ab".data [⟨"PERSON", 0, 1⟩] "x".data [] (by decide)

/-- C6 counterexample: the cleanup passes do not strip the delimiters
`\x7b\x7b`/`\x7d\x7d` from the context windows — they collapse them to
single braces.  On this input the resolver described by the claim (full
stripping, `specMatchEntities`) cannot locate the before context and
leaves the entity unresolved, while the code (`match_entities`) resolves
it to `[5, 9)`. -/
theorem claim_C6_counterexample :
    specMatchEntities "x\x7bA\x7dyNAMEz".data
        "x\x7b\x7bA\x7d\x7dy\x7b\x7bB\x7d\x7dz".data
        [⟨7, 12, none, none, none⟩] = [⟨7, 12, none, none, none⟩] ∧
    match_entities "x\x7bA\x7dyNAMEz".data
        "x\x7b\x7bA\x7d\x7dy\x7b\x7bB\x7d\x7dz".data
        [⟨7, 12, none, none, none⟩] =
      [⟨7, 12, some 5, some 9, some "NAME"⟩] ∧
    cleanContext "x\x7b\x7bA\x7d\x7dy".data ≠
      specStrip "x\x7b\x7bA\x7d\x7dy".data :=
  ⟨by decide, by decide, by decide⟩

/-- C6 (amended): for every placeholder occurrence the primary strategy
extracts up to 20 characters of context before `mask_start` and after
`mask_end`, collapses each doubled placeholder delimiter in the windows
(`\x7b\x7b` to `\x7b` and `\x7d\x7d` to `\x7d`, removing only the first
brace of each pair, rather than stripping them), locates the before
context as a literal substring (first occurrence) and then the after
context at or after the end of the before match, and — when the after
match starts strictly beyond that end — returns the half-open range
between the end of the before match and the start of the after match. -/
theorem claim_C6 (orig masked : List Char) (ent : MEntity)
    (cb ca : List Char) (bp ap : Nat)
    (hcb : cb = cleanContext (contextBefore masked ent.start))
    (hca : ca = cleanContext (contextAfter masked ent.stop))
    (hne1 : cb ≠ []) (hne2 : ca ≠ [])
    (hbp : findSub orig cb = some bp)
    (hap : findSubFrom orig ca (bp + cb.length) = some ap)
    (hlt : bp + cb.length < ap) :
    processEntity orig masked ent =
      { ent with start_position := some (bp + cb.length),
                 end_position := some ap,
                 orig_text :=
                   some ⟨(orig.drop (bp + cb.length)).take
                     (ap - (bp + cb.length))⟩ } := by
  have hprim : tryPrimary orig cb ca = some (bp + cb.length, ap) := by
    unfold tryPrimary
    rw [if_pos ⟨hne1, hne2⟩, hbp]
    simp only
    rw [hap]
    simp only
    rw [if_pos hlt]
  simp only [processEntity, ← hcb, ← hca, hprim]

theorem claim_C6_witness :
    processEntity "x\x7bA\x7dyNAMEz".data
        "x\x7b\x7bA\x7d\x7dy\x7b\x7bB\x7d\x7dz".data
        ⟨7, 12, none, none, none⟩ =
      ⟨7, 12, some 5, some 9, some "NAME"⟩ := by
  have h := claim_C6 "x\x7bA\x7dyNAMEz".data
    "x\x7b\x7bA\x7d\x7dy\x7b\x7bB\x7d\x7dz".data
    ⟨7, 12, none, none, none⟩
    (cleanContext (contextBefore
      "x\x7b\x7bA\x7d\x7dy\x7b\x7bB\x7d\x7dz".data 7))
    (cleanContext (contextAfter
      "x\x7b\x7bA\x7d\x7dy\x7b\x7bB\x7d\x7dz".data 12))
    0 9 rfl rfl (by decide) (by decide) (by decide) (by decide) (by decide)
  exact h

/-- C7 counterexample: with two placeholders over repeated context, the
resolver matches stale context from the start of the original text: both
entities resolve to the same span `[2, 3)`, so the second placeholder is
resolved at (indeed before the end of) the first placeholder's resolved
span, contradicting the claimed cursor discipline. -/
theorem claim_C7_counterexample :
    match_entities "xyAz xyBz".data
        "xy\x7b\x7bP\x7d\x7dz xy\x7b\x7bP\x7d\x7dz".data
        [⟨2, 7, none, none, none⟩, ⟨11, 16, none, none, none⟩] =
      [⟨2, 7, some 2, some 3, some "A"⟩,
        ⟨11, 16, some 2, some 3, some "A"⟩] := by
  decide

/-- C7 (amended): the resolver keeps no search cursor between
placeholders: each entity is processed independently of all previously
resolved ones (so `match_entities` distributes over concatenation of the
entity list), with every before-context search starting from the
beginning of the original text; consequently a later placeholder can be
resolved to a position at or before an earlier placeholder's resolved
span. -/
theorem claim_C7 (orig masked : List Char) (es1 es2 : List MEntity) :
    match_entities orig masked (es1 ++ es2) =
      match_entities orig masked es1 ++ match_entities orig masked es2 := by
  unfold match_entities
  exact List.map_append _ _ _

/-- C8: when neither the primary strategy nor the token fallback
succeeds for an entity, no exception is raised: the entity is returned
unchanged (original-text offsets left unset) at its position in the
output, and the remaining entities are still processed. -/
theorem claim_C8 (orig masked : List Char) (ent : MEntity)
    (es1 es2 : List MEntity)
    (hp : tryPrimary orig (cleanContext (contextBefore masked ent.start))
        (cleanContext (contextAfter masked ent.stop)) = none)
    (hf : tryFallback orig (cleanContext (contextBefore masked ent.start))
        (cleanContext (contextAfter masked ent.stop)) = none) :
    processEntity orig masked ent = ent ∧
    match_entities orig masked (es1 ++ ent :: es2) =
      match_entities orig masked es1 ++
        ent :: match_entities orig masked es2 := by
  have h1 : processEntity orig masked ent = ent := by
    simp only [processEntity, hp, hf]
  refine ⟨h1, ?_⟩
  unfold match_entities
  rw [List.map_append, List.map_cons, h1]

theorem claim_C8_witness :
    processEntity "q".data "\x7b\x7bA\x7d\x7d".data ⟨0, 5, none, none, none⟩ =
        ⟨0, 5, none, none, none⟩ ∧
    match_entities "q".data "\x7b\x7bA\x7d\x7d".data
        ([] ++ ⟨0, 5, none, none, none⟩ :: []) =
      match_entities "q".data "\x7b\x7bA\x7d\x7d".data [] ++
        ⟨0, 5, none, none, none⟩ ::
          match_entities "q".data "\x7b\x7bA\x7d\x7d".data [] :=
  claim_C8 "q".data "\x7b\x7bA\x7d\x7d".data ⟨0, 5, none, none, none⟩ [] []
    (by decide) (by decide)

theorem anonymizeLoop_eq (f : List Char → ParagraphRecord) :
    ∀ ps, anonymizeLoop f ps = (ps.filter fun p => !isBlank p).map f := by
  intro ps
  induction ps with
  | nil => rfl
  | cons p rest ih =>
    rw [anonymizeLoop]
    cases hb : isBlank p with
    | true => simp [List.filter_cons, hb, ih]
    | false => simp [List.filter_cons, hb, ih]

theorem splitNL_no_nl {p : List Char} (h : '\n' ∉ p) : splitNL p = [p] := by
  induction p with
  | nil => rfl
  | cons c rest ih =>
    rw [splitNL]
    have hc : ¬(c = '\n') := fun hc => h (hc ▸ List.mem_cons_self _ _)
    rw [if_neg hc, ih fun hm => h (List.mem_cons_of_mem _ hm)]

theorem splitNL_append (p : List Char) (h : '\n' ∉ p) (rest : List Char) :
    splitNL (p ++ '\n' :: rest) = p :: splitNL rest := by
  induction p with
  | nil => simp [splitNL]
  | cons c q ih =>
    have hc : ¬(c = '\n') := fun hc => h (hc ▸ List.mem_cons_self _ _)
    rw [List.cons_append, splitNL, if_neg hc,
      ih fun hm => h (List.mem_cons_of_mem _ hm)]

/-- C9: `anonymize` splits the text on line breaks into ordered
paragraphs and drops every blank (empty or whitespace-only) paragraph,
producing exactly one record per non-blank paragraph in order; in
particular, two non-blank paragraphs separated by a blank line yield
exactly the two corresponding records. -/
theorem claim_C9 :
    (∀ (f : List Char → ParagraphRecord) (text : List Char),
      anonymize f text = ((splitNL text).filter fun p => !isBlank p).map f) ∧
    (∀ (f : List Char → ParagraphRecord) (p1 p2 : List Char),
      '\n' ∉ p1 → '\n' ∉ p2 → isBlank p1 = false → isBlank p2 = false →
      anonymize f (p1 ++ '\n' :: '\n' :: p2) = [f p1, f p2]) := by
  constructor
  · intro f text
    exact anonymizeLoop_eq f (splitNL text)
  · intro f p1 p2 h1 h2 hb1 hb2
    unfold anonymize
    rw [splitNL_append p1 h1, splitNL, if_pos rfl, splitNL_no_nl h2]
    have hnil : isBlank [] = true := rfl
    rw [anonymizeLoop, if_neg (by simp [hb1])]
    rw [anonymizeLoop, if_pos hnil]
    rw [anonymizeLoop, if_neg (by simp [hb2])]
    rfl

theorem claim_C9_witness :
    anonymize (fun p => ⟨p, p, []⟩) ("a".data ++ '\n' :: '\n' :: "b".data) =
      [⟨"a".data, "a".data, []⟩, ⟨"b".data, "b".data, []⟩] :=
  claim_C9.2 (fun p => ⟨p, p, []⟩) "a".data "b".data
    (by decide) (by decide) (by decide) (by decide)

/-- C10: `CustomReplace.operate` returns
`\x7b\x7b` ++ entity_type ++ `\x7d\x7d` whenever the `new_value`
parameter is absent/`None` or the empty string, and returns `new_value`
itself exactly when it is a non-empty string. -/
theorem claim_C10 :
    (∀ (p : OperateParams) (t : String), p.entity_type = some t →
      (p.new_value = none ∨ p.new_value = some "") →
      CustomReplace.operate p = "\x7b\x7b" ++ t ++ "\x7d\x7d") ∧
    (∀ (p : OperateParams) (v : String), p.new_value = some v → v ≠ "" →
      CustomReplace.operate p = v) := by
  constructor
  · intro p t ht hv
    unfold CustomReplace.operate
    rcases hv with hv | hv <;>
      simp [hv, truthyStr, ht, pyFstrOpt, CustomReplace.PRE_STRING,
        CustomReplace.POST_STRING]
  · intro p v hv hne
    unfold CustomReplace.operate
    simp [hv, truthyStr, hne]

theorem claim_C10_witness :
    CustomReplace.operate ⟨some "", some "PERSON"⟩ =
        "\x7b\x7bPERSON\x7d\x7d" ∧
    CustomReplace.operate ⟨none, some "PERSON"⟩ =
        "\x7b\x7bPERSON\x7d\x7d" ∧
    CustomReplace.operate ⟨some "X", some "PERSON"⟩ = "X" :=
  ⟨claim_C10.1 ⟨some "", some "PERSON"⟩ "PERSON" rfl (Or.inr rfl),
    claim_C10.1 ⟨none, some "PERSON"⟩ "PERSON" rfl (Or.inl rfl),
    claim_C10.2 ⟨some "X", some "PERSON"⟩ "X" rfl (by decide)⟩

end Anonymizer
